import Mathlib

/-!
Verification of the Souffle AST-to-RAM translator middle-end: a shallow
embedding of the semi-naive clause translator (ast2ram/seminaive/ClauseTranslator.cpp),
the SCC driver and program assembler (ast2ram/AstToRamTranslator.cpp) and the
interpreter node-type dispatch (interpreter/Node.h), together with theorems
checking the natural-language specification against that embedding.
-/

namespace Souffle

/-! ## Name mangling

Modelled from the spec (section 4.1 Name Mangler): the pure naming functions
live in ast2ram/utility/Utils.cpp, which is outside the embedded sources; the
spec gives them exactly as prefix attachment. -/

def getConcreteRelationName (n : String) : String := n

def getDeltaRelationName (n : String) : String := "@delta_" ++ n

def getNewRelationName (n : String) : String := "@new_" ++ n

def getRejectRelationName (n : String) : String := "@reject_" ++ n

def getDeleteRelationName (n : String) : String := "@delete_" ++ n

/-! ## RAM data model (ram/ headers referenced by the translator) -/

inductive RelationRepresentation where
  | DEFAULT | BTREE | BRIE | EQREL | PROVENANCE | BTREE_DELETE | INFO
  deriving DecidableEq, Repr

inductive RamExpr where
  | TupleElement (level col : Nat)
  | SignedConstant (v : Int)
  | UnsignedConstant (v : Nat)
  | FloatConstant (v : Rat)
  | StringConstant (s : String)
  | RelationSize (rel : String)
  | UndefValue
  deriving DecidableEq, Repr

inductive BinCOp where
  | EQ | FEQ | GE
  deriving DecidableEq, Repr

inductive RamCondition where
  | EmptinessCheck (rel : String)
  | ExistenceCheck (rel : String) (values : List RamExpr)
  | Negation (c : RamCondition)
  | Conjunction (a b : RamCondition)
  | Constraint (op : BinCOp) (lhs rhs : RamExpr)
  | True
  deriving DecidableEq, Repr

inductive RamOperation where
  | Insert (rel : String) (values : List RamExpr)
  | GuardedInsert (rel : String) (values : List RamExpr) (cond : RamCondition)
  | Filter (cond : RamCondition) (inner : RamOperation)
  | Scan (rel : String) (level : Nat) (inner : RamOperation)
  | Break (cond : RamCondition) (inner : RamOperation)
  | UnpackRecord (inner : RamOperation) (level : Nat) (ref : RamExpr) (arity : Nat)
  deriving DecidableEq, Repr

/-- A RAM statement; only the constructors the embedded translator fragments
emit are modelled.  An Exit statement's condition is an Option because the C++
builder passes a possibly-null condition pointer. -/
inductive RamStatement where
  | Exit (cond : Option RamCondition)
  | Clear (rel : String)
  deriving DecidableEq, Repr

/-- ram::Relation as constructed by AstToRamTranslator::createRamRelation. -/
structure RamRelation where
  name : String
  arity : Nat
  auxiliaryArity : Nat
  attributeNames : List String
  attributeTypeQualifiers : List String
  representation : RelationRepresentation
  deriving DecidableEq, Repr

/-! ## AST data model (ast/ headers referenced by the translator) -/

/-- An AST argument of a clause.  Compound functor terms are represented by
the set of variables they mention, which is all the embedded translator code
inspects of them (through ast visitors). -/
inductive Arg where
  | Var (n : String)
  | UnnamedVar
  | IntC (v : Int)
  | UintC (v : Nat)
  | FloatC (v : Rat)
  | StrC (s : String)
  | NilC
  | Func (vars : List String)
  deriving DecidableEq, Repr

def Arg.isConstant : Arg → Bool
  | .IntC _ | .UintC _ | .FloatC _ | .StrC _ | .NilC => true
  | _ => false

/-- The variables an ast visitor collects below an argument. -/
def Arg.vars : Arg → List String
  | .Var n => [n]
  | .Func vs => vs
  | _ => []

structure Atom where
  name : String
  args : List Arg
  deriving DecidableEq, Repr

instance : Inhabited Atom := ⟨⟨"", []⟩⟩

/-- ast binary-constraint base operators used by the translator. -/
inductive AstCOp where
  | EQ | NE | LT | LE | GT | GE
  deriving DecidableEq, Repr

def isEqConstraint : AstCOp → Bool
  | .EQ => true
  | _ => false

def isIneqConstraint : AstCOp → Bool
  | .LT | .LE | .GT | .GE => true
  | _ => false

def isLessThan : AstCOp → Bool
  | .LT => true
  | _ => false

def isLessEqual : AstCOp → Bool
  | .LE => true
  | _ => false

def isGreaterThan : AstCOp → Bool
  | .GT => true
  | _ => false

def isGreaterEqual : AstCOp → Bool
  | .GE => true
  | _ => false

inductive Literal where
  | atom (a : Atom)
  | negation (a : Atom)
  | binaryConstraint (op : AstCOp) (lhs rhs : Arg)
  deriving DecidableEq, Repr

/-- An execution plan: version number to 1-based atom order, as in
ast::ExecutionPlan::getOrders. -/
abbrev ExecutionPlan := List (Nat × List Nat)

structure Clause where
  head : Atom
  body : List Literal
  isSubsumptive : Bool
  executionPlan : Option ExecutionPlan := none
  deriving DecidableEq, Repr

def bodyAtoms (c : Clause) : List Atom :=
  c.body.filterMap (fun l => match l with | .atom a => some a | _ => none)

def bodyBinaryConstraints (c : Clause) : List (AstCOp × Arg × Arg) :=
  c.body.filterMap (fun l => match l with
    | .binaryConstraint op lhs rhs => some (op, lhs, rhs)
    | _ => none)

/-- ast2ram TranslationMode values referenced by the seminaive clause
translator. -/
inductive TranslationMode where
  | DEFAULT
  | SubsumeRejectNewNew
  | SubsumeRejectNewCurrent
  | SubsumeDeleteCurrentDelta
  | SubsumeDeleteCurrentCurrent
  deriving DecidableEq, Repr

/-- Per-clause translator state.  sccAtomIdxs lists, in body order, the
positions (into bodyAtoms) of the body atoms whose relation is in the SCC;
positional identity models the pointer identity the C++ code compares with. -/
structure TranslatorState where
  mode : TranslationMode
  sccAtomIdxs : List Nat
  version : Nat
  deriving DecidableEq, Repr

def isRecursive (st : TranslatorState) : Bool := !st.sccAtomIdxs.isEmpty

/-- An atom occurrence inside a clause: the head, or the i-th body atom. -/
inductive AtomRef where
  | head
  | body (i : Nat)
  deriving DecidableEq, Repr

def atomOfRef (c : Clause) (r : AtomRef) : Atom :=
  match r with
  | .head => c.head
  | .body i => (bodyAtoms c).getD i default

/-- Whether r is the body atom stored at position v of the translator's
sccAtoms vector (false when v is out of range, where the C++ at() would
abort). -/
def refIsSccAt (st : TranslatorState) (r : AtomRef) (v : Nat) : Bool :=
  match r with
  | .head => false
  | .body j => st.sccAtomIdxs.get? v == some j

/-- ClauseTranslator::getClauseAtomName (seminaive/ClauseTranslator.cpp
lines 140-187). -/
def getClauseAtomName (st : TranslatorState) (c : Clause) (r : AtomRef) : String :=
  let nm := (atomOfRef c r).name
  let tail : String :=
    if ¬ isRecursive st then getConcreteRelationName nm
    else if r = .head then getNewRelationName nm
    else if refIsSccAt st r st.version then getDeltaRelationName nm
    else getConcreteRelationName nm
  if c.isSubsumptive then
    if r = .head then
      if st.mode = .SubsumeDeleteCurrentDelta ∨ st.mode = .SubsumeDeleteCurrentCurrent then
        getDeleteRelationName nm
      else getRejectRelationName nm
    else if r = .body 0 then
      if st.mode = .SubsumeDeleteCurrentDelta ∨ st.mode = .SubsumeDeleteCurrentCurrent then
        getConcreteRelationName nm
      else getNewRelationName nm
    else if r = .body 1 then
      match st.mode with
      | .SubsumeRejectNewCurrent | .SubsumeDeleteCurrentCurrent => getConcreteRelationName nm
      | .SubsumeDeleteCurrentDelta => getDeltaRelationName nm
      | _ => getNewRelationName nm
    else if isRecursive st ∧ refIsSccAt st r (st.version + 1) then
      getDeltaRelationName nm
    else tail
  else tail

/-! ## C5: subsumptive mode table for getClauseAtomName -/

/-- C5: for every subsumptive clause, getClauseAtomName resolves the head,
the dominated body atom (body position 0) and the dominating body atom (body
position 1) exactly per the mode table: reject-modes send the head to
@reject_ and the dominated atom to @new_; delete-modes send the head to
@delete_ and the dominated atom to the concrete relation; the dominating atom
reads @new_ in RejectNewNew, the concrete relation in RejectNewCurrent and
DeleteCurrentCurrent, and @delta_ in DeleteCurrentDelta. -/
theorem getClauseAtomName_subsumptive_mode_table
    (st : TranslatorState) (c : Clause) (hsub : c.isSubsumptive = true) :
    ((st.mode = .SubsumeRejectNewNew ∨ st.mode = .SubsumeRejectNewCurrent) →
      getClauseAtomName st c .head = getRejectRelationName c.head.name ∧
      getClauseAtomName st c (.body 0) = getNewRelationName (atomOfRef c (.body 0)).name) ∧
    ((st.mode = .SubsumeDeleteCurrentDelta ∨ st.mode = .SubsumeDeleteCurrentCurrent) →
      getClauseAtomName st c .head = getDeleteRelationName c.head.name ∧
      getClauseAtomName st c (.body 0) = getConcreteRelationName (atomOfRef c (.body 0)).name) ∧
    (st.mode = .SubsumeRejectNewNew →
      getClauseAtomName st c (.body 1) = getNewRelationName (atomOfRef c (.body 1)).name) ∧
    ((st.mode = .SubsumeRejectNewCurrent ∨ st.mode = .SubsumeDeleteCurrentCurrent) →
      getClauseAtomName st c (.body 1) = getConcreteRelationName (atomOfRef c (.body 1)).name) ∧
    (st.mode = .SubsumeDeleteCurrentDelta →
      getClauseAtomName st c (.body 1) = getDeltaRelationName (atomOfRef c (.body 1)).name) := by
  refine ⟨?_, ?_, ?_, ?_, ?_⟩ <;> intro h <;>
    first
      | (rcases h with h | h <;> simp [getClauseAtomName, hsub, h, atomOfRef])
      | simp [getClauseAtomName, hsub, h, atomOfRef]

theorem getClauseAtomName_subsumptive_mode_table_witness :
    (let c : Clause := ⟨⟨"p", [Arg.Var "x"]⟩,
        [Literal.atom ⟨"p", [Arg.Var "a"]⟩, Literal.atom ⟨"p", [Arg.Var "b"]⟩], true, none⟩
     let st : TranslatorState := ⟨.SubsumeDeleteCurrentDelta, [], 0⟩
     getClauseAtomName st c .head = "@delete_p" ∧
     getClauseAtomName st c (.body 0) = "p" ∧
     getClauseAtomName st c (.body 1) = "@delta_p") := by
  have h := getClauseAtomName_subsumptive_mode_table
    ⟨.SubsumeDeleteCurrentDelta, [], 0⟩
    ⟨⟨"p", [Arg.Var "x"]⟩,
      [Literal.atom ⟨"p", [Arg.Var "a"]⟩, Literal.atom ⟨"p", [Arg.Var "b"]⟩], true, none⟩
    rfl
  refine ⟨(h.2.1 (Or.inl rfl)).1, (h.2.1 (Or.inl rfl)).2, h.2.2.2.2 rfl⟩

/-! ## C2: relation declarations per SCC (AstToRamTranslator::createRamRelation) -/

/-- An ast::Relation as seen by createRamRelation: qualified name, attribute
(name, typeName) pairs and representation.  The arity is the number of
attributes. -/
structure AstRelationDecl where
  name : String
  attributes : List (String × String)
  representation : RelationRepresentation
  deriving DecidableEq, Repr

/-- The declarations createRamRelation adds for one relation of the SCC
(AstToRamTranslator.cpp lines 693-727): the concrete relation always, and for
a recursive SCC also the @delta_ and @new_ variants built from the same
arity, auxiliary arity, attribute metadata and representation. -/
def createRamRelationFor (auxiliaryArity : Nat) (typeQualifier : String → String)
    (isRec : Bool) (rel : AstRelationDecl) : List (String × RamRelation) :=
  let arity := rel.attributes.length
  let attributeNames := rel.attributes.map Prod.fst
  let attributeTypeQualifiers := rel.attributes.map (fun a => typeQualifier a.2)
  let base : RamRelation :=
    ⟨rel.name, arity, auxiliaryArity, attributeNames, attributeTypeQualifiers,
      rel.representation⟩
  if isRec then
    [(rel.name, base),
     (getDeltaRelationName rel.name,
       ⟨getDeltaRelationName rel.name, arity, auxiliaryArity, attributeNames,
         attributeTypeQualifiers, rel.representation⟩),
     (getNewRelationName rel.name,
       ⟨getNewRelationName rel.name, arity, auxiliaryArity, attributeNames,
         attributeTypeQualifiers, rel.representation⟩)]
  else [(rel.name, base)]

/-- AstToRamTranslator::createRamRelation over the internal relations of one
SCC. -/
def createRamRelation (auxiliaryArity : AstRelationDecl → Nat)
    (typeQualifier : String → String) (isRec : Bool)
    (sccRelations : List AstRelationDecl) : List (String × RamRelation) :=
  sccRelations.flatMap (fun rel => createRamRelationFor (auxiliaryArity rel) typeQualifier isRec rel)

/-- Two RAM relation declarations agree on everything except the name. -/
def sameSchema (a b : RamRelation) : Prop :=
  a.arity = b.arity ∧ a.auxiliaryArity = b.auxiliaryArity ∧
  a.attributeNames = b.attributeNames ∧
  a.attributeTypeQualifiers = b.attributeTypeQualifiers ∧
  a.representation = b.representation

/-- C2: for a recursive SCC the translator declares exactly the three
relations R, @delta_R and @new_R per SCC relation (in that order), every
declared relation is keyed by its own name, any two of the three share the
same arity, auxiliary arity, attribute names, type qualifiers and
representation, and for a non-recursive SCC only the concrete relation is
declared. -/
theorem createRamRelation_triples (auxiliaryArity : AstRelationDecl → Nat)
    (typeQualifier : String → String) (sccRelations : List AstRelationDecl) :
    ((createRamRelation auxiliaryArity typeQualifier true sccRelations).map Prod.fst =
      sccRelations.flatMap (fun rel =>
        [rel.name, getDeltaRelationName rel.name, getNewRelationName rel.name])) ∧
    (∀ rel ∈ sccRelations, ∀ p ∈ createRamRelationFor (auxiliaryArity rel) typeQualifier true rel,
      ∀ q ∈ createRamRelationFor (auxiliaryArity rel) typeQualifier true rel,
        p.1 = p.2.name ∧ sameSchema p.2 q.2) ∧
    ((createRamRelation auxiliaryArity typeQualifier false sccRelations).map Prod.fst =
      sccRelations.map (fun rel => rel.name)) := by
  refine ⟨?_, ?_, ?_⟩
  · induction sccRelations with
    | nil => rfl
    | cons rel rest ih =>
        simp only [createRamRelation] at ih ⊢
        rw [List.flatMap_cons, List.map_append, ih, List.flatMap_cons]
        rfl
  · intro rel _ p hp q hq
    simp [createRamRelationFor] at hp hq
    rcases hp with rfl | rfl | rfl <;> rcases hq with rfl | rfl | rfl <;>
      exact ⟨rfl, rfl, rfl, rfl, rfl, rfl⟩
  · induction sccRelations with
    | nil => rfl
    | cons rel rest ih =>
        simp only [createRamRelation] at ih ⊢
        rw [List.flatMap_cons, List.map_append, ih, List.map_cons]
        rfl

theorem createRamRelation_triples_witness :
    (let edge : AstRelationDecl := ⟨"edge", [("x", "number"), ("y", "number")], .BTREE⟩
     let decls := createRamRelation (fun _ => 0) (fun t => t) true [edge]
     decls.map Prod.fst = ["edge", "@delta_edge", "@new_edge"] ∧
     (∀ p ∈ createRamRelationFor 0 (fun t => t) true edge,
      ∀ q ∈ createRamRelationFor 0 (fun t => t) true edge,
        p.1 = p.2.name ∧ sameSchema p.2 q.2)) := by
  have h := createRamRelation_triples (fun _ => 0) (fun t => t)
    [⟨"edge", [("x", "number"), ("y", "number")], .BTREE⟩]
  exact ⟨h.1, h.2.1 ⟨"edge", [("x", "number"), ("y", "number")], .BTREE⟩ (by simp)⟩

/-! ## C8: recursive stratum exit conditions
(AstToRamTranslator::generateStratumExitConditions) -/

/-- The conjunction builder used in generateStratumExitConditions
(AstToRamTranslator.cpp lines 530-532). -/
def addCondition (cond : Option RamCondition) (term : RamCondition) : Option RamCondition :=
  match cond with
  | none => some term
  | some c => some (.Conjunction c term)

/-- AstToRamTranslator::generateStratumExitConditions (lines 527-554).
limitSize models the IOType analysis: some limit for relations carrying a
limitsize directive, none otherwise. -/
def generateStratumExitConditions (limitSize : AstRelationDecl → Option Int)
    (scc : List AstRelationDecl) : List RamStatement :=
  let emptinessCheck := scc.foldl
    (fun cond rel => addCondition cond (.EmptinessCheck (getNewRelationName rel.name))) none
  RamStatement.Exit emptinessCheck ::
    scc.filterMap (fun rel => (limitSize rel).map (fun limit =>
      RamStatement.Exit (some (.Constraint .GE
        (.RelationSize (getConcreteRelationName rel.name)) (.SignedConstant limit)))))

/-- The terms of a left-nested conjunction, left to right. -/
def conjTerms : RamCondition → List RamCondition
  | .Conjunction a b => conjTerms a ++ [b]
  | c => [c]

/-- The left-nested conjunction of a first term and a list of further terms. -/
def conjOf (first : RamCondition) (rest : List RamCondition) : RamCondition :=
  rest.foldl (fun a b => .Conjunction a b) first

theorem foldl_addCondition_eq {α : Type} (f : α → RamCondition) (rest : List α) :
    ∀ first : RamCondition,
      rest.foldl (fun c x => addCondition c (f x)) (some first) =
        some (conjOf first (rest.map f)) := by
  induction rest with
  | nil => intro first; simp [conjOf]
  | cons t ts ih =>
      intro first
      simp only [List.foldl_cons, List.map_cons]
      rw [show addCondition (some first) (f t) = some (.Conjunction first (f t)) from rfl, ih]
      rfl

theorem conjTerms_conjOf (rest : List RamCondition) :
    ∀ first : RamCondition, conjTerms (conjOf first rest) = conjTerms first ++ rest := by
  induction rest with
  | nil => intro first; simp [conjOf]
  | cons t ts ih =>
      intro first
      rw [show conjOf first (t :: ts) = conjOf (.Conjunction first t) ts from rfl, ih]
      simp [conjTerms]

/-- C8: for a non-empty recursive SCC the exit-condition block is the
statement list whose first element is an Exit whose condition is the
conjunction, over all SCC relations, of EmptinessCheck(@new_R), followed by
one separate Exit per relation carrying a limitsize directive whose condition
is RelationSize(concrete R) >= limit. -/
theorem generateStratumExitConditions_spec (limitSize : AstRelationDecl → Option Int)
    (scc : List AstRelationDecl) (hne : scc ≠ []) :
    ∃ c : RamCondition,
      generateStratumExitConditions limitSize scc =
        RamStatement.Exit (some c) ::
          scc.filterMap (fun rel => (limitSize rel).map (fun limit =>
            RamStatement.Exit (some (.Constraint .GE
              (.RelationSize (getConcreteRelationName rel.name)) (.SignedConstant limit))))) ∧
      conjTerms c = scc.map (fun rel => .EmptinessCheck (getNewRelationName rel.name)) := by
  match scc, hne with
  | rel :: rest, _ =>
    refine ⟨conjOf (.EmptinessCheck (getNewRelationName rel.name))
        (rest.map (fun r => .EmptinessCheck (getNewRelationName r.name))), ?_, ?_⟩
    · have hf := foldl_addCondition_eq
        (fun r : AstRelationDecl => RamCondition.EmptinessCheck (getNewRelationName r.name)) rest
        (RamCondition.EmptinessCheck (getNewRelationName rel.name))
      simp only at hf
      simp only [generateStratumExitConditions, List.foldl_cons]
      rw [show addCondition none (.EmptinessCheck (getNewRelationName rel.name)) =
            some (.EmptinessCheck (getNewRelationName rel.name)) from rfl]
      rw [hf]
    · rw [conjTerms_conjOf]
      simp [conjTerms]

theorem generateStratumExitConditions_spec_witness :
    (let path : AstRelationDecl := ⟨"path", [("x", "number"), ("y", "number")], .BTREE⟩
     let edge : AstRelationDecl := ⟨"edge", [("x", "number"), ("y", "number")], .BTREE⟩
     let limitSize : AstRelationDecl → Option Int := fun r => if r.name = "path" then some 100 else none
     ∃ c : RamCondition,
       generateStratumExitConditions limitSize [edge, path] =
         [RamStatement.Exit (some c),
          RamStatement.Exit (some (.Constraint .GE (.RelationSize "path") (.SignedConstant 100)))] ∧
       conjTerms c = [.EmptinessCheck "@new_edge", .EmptinessCheck "@new_path"]) := by
  have h := generateStratumExitConditions_spec
    (fun r => if r.name = "path" then some 100 else none)
    [⟨"edge", [("x", "number"), ("y", "number")], .BTREE⟩,
     ⟨"path", [("x", "number"), ("y", "number")], .BTREE⟩]
    (by simp)
  simpa [getNewRelationName, getConcreteRelationName] using h

/-! ## C10: interpreter node-type construction (interpreter/Node.h) -/

inductive StructureTag where
  | Btree | BtreeDelete | Eqrel | Provenance
  deriving DecidableEq, Repr

/-- An interpreter NodeType token I_tok_Structure_arity. -/
structure NodeType where
  tokBase : String
  dataStructure : StructureTag
  arity : Nat
  deriving DecidableEq, Repr

/-- The representation dispatch of constructNodeType (Node.h lines 150-159):
EQREL and BTREE_DELETE take precedence over the provenance flag; only the
remaining representations consult it. -/
def constructNodeTypeCore (isProvenance : Bool) (tokBase : String) (rel : RamRelation) : NodeType :=
  if rel.representation = .EQREL then ⟨tokBase, .Eqrel, rel.arity⟩
  else if rel.representation = .BTREE_DELETE then ⟨tokBase, .BtreeDelete, rel.arity⟩
  else if isProvenance then ⟨tokBase, .Provenance, rel.arity⟩
  else ⟨tokBase, .Btree, rel.arity⟩

/-- constructNodeType with the function-local static
isProvenance = Global::config().has("provenance") made explicit: the cache is
none before the first invocation and holds the flag value read at that first
invocation afterwards. -/
def constructNodeType (configProvenance : Bool) (cache : Option Bool)
    (tokBase : String) (rel : RamRelation) : NodeType × Option Bool :=
  let isProvenance := cache.getD configProvenance
  (constructNodeTypeCore isProvenance tokBase rel, some isProvenance)

/-- A sequence of constructNodeType invocations, each seeing the value the
configuration flag has at that call, threading the static cache. -/
def runConstructNodeType : List (Bool × String × RamRelation) → Option Bool → List NodeType
  | [], _ => []
  | (flag, tok, rel) :: rest, cache =>
      let r := constructNodeType flag cache tok rel
      r.1 :: runConstructNodeType rest r.2

theorem runConstructNodeType_cached (calls : List (Bool × String × RamRelation)) (b : Bool) :
    runConstructNodeType calls (some b) =
      calls.map (fun call => constructNodeTypeCore b call.2.1 call.2.2) := by
  induction calls with
  | nil => rfl
  | cons call rest ih =>
      simp [runConstructNodeType, constructNodeType, ih]

/-- C10: an EQREL relation always yields the Eqrel node variant and a
BTREE_DELETE relation always yields the BtreeDelete variant, whatever the
provenance flag and cache state; for other representations the provenance
flag selects Provenance versus Btree; and the flag is read once at the first
invocation and cached, so every later call uses the first call's flag value
regardless of how the configuration flag changes afterwards. -/
theorem constructNodeType_dispatch :
    (∀ (flag : Bool) (cache : Option Bool) (tok : String) (rel : RamRelation),
      rel.representation = .EQREL →
        (constructNodeType flag cache tok rel).1 = ⟨tok, .Eqrel, rel.arity⟩) ∧
    (∀ (flag : Bool) (cache : Option Bool) (tok : String) (rel : RamRelation),
      rel.representation = .BTREE_DELETE →
        (constructNodeType flag cache tok rel).1 = ⟨tok, .BtreeDelete, rel.arity⟩) ∧
    (∀ (flag : Bool) (tok : String) (rel : RamRelation),
      rel.representation ≠ .EQREL → rel.representation ≠ .BTREE_DELETE →
        (constructNodeType flag none tok rel).1 =
          ⟨tok, if flag then .Provenance else .Btree, rel.arity⟩) ∧
    (∀ (firstFlag : Bool) (tok : String) (rel : RamRelation)
       (rest : List (Bool × String × RamRelation)),
      runConstructNodeType ((firstFlag, tok, rel) :: rest) none =
        constructNodeTypeCore firstFlag tok rel ::
          rest.map (fun call => constructNodeTypeCore firstFlag call.2.1 call.2.2)) := by
  refine ⟨?_, ?_, ?_, ?_⟩
  · intro flag cache tok rel h
    cases cache <;> simp [constructNodeType, constructNodeTypeCore, h]
  · intro flag cache tok rel h
    cases cache <;> simp [constructNodeType, constructNodeTypeCore, h]
  · intro flag tok rel h1 h2
    cases flag <;> simp [constructNodeType, constructNodeTypeCore, h1, h2]
  · intro firstFlag tok rel rest
    simp [runConstructNodeType, constructNodeType, runConstructNodeType_cached]

theorem constructNodeType_dispatch_witness :
    (let relEq : RamRelation := ⟨"eq", 2, 0, [], [], .EQREL⟩
     let relBt : RamRelation := ⟨"r", 3, 0, [], [], .BTREE⟩
     (constructNodeType true none "Scan" relEq).1 = ⟨"Scan", .Eqrel, 2⟩ ∧
     (constructNodeType false none "Scan" relEq).1 = ⟨"Scan", .Eqrel, 2⟩ ∧
     runConstructNodeType [(false, "Scan", relBt), (true, "Scan", relBt)] none =
       [⟨"Scan", .Btree, 3⟩, ⟨"Scan", .Btree, 3⟩]) := by
  have h := constructNodeType_dispatch
  refine ⟨h.1 true none "Scan" ⟨"eq", 2, 0, [], [], .EQREL⟩ rfl,
          h.1 false none "Scan" ⟨"eq", 2, 0, [], [], .EQREL⟩ rfl, ?_⟩
  have h4 := h.2.2.2 false "Scan" ⟨"r", 3, 0, [], [], .BTREE⟩ [(true, "Scan", ⟨"r", 3, 0, [], [], .BTREE⟩)]
  simpa [constructNodeTypeCore] using h4

/-! ## C6: ADT erasure (AstToRamTranslator::removeADTs) -/

/-- Lexicographic comparison of character-code lists, the order std strings
and hence ADT branch names are sorted by. -/
def charListLt : List Char → List Char → Bool
  | [], [] => false
  | [], _ :: _ => true
  | _ :: _, [] => false
  | a :: as, b :: bs =>
      if a.toNat < b.toNat then true
      else if b.toNat < a.toNat then false
      else charListLt as bs

def strLt (a b : String) : Bool := charListLt a.data b.data

theorem charListLt_irrefl : ∀ l, charListLt l l = false := by
  intro l
  induction l with
  | nil => rfl
  | cons a as ih => simp [charListLt, ih]

theorem charListLt_asymm : ∀ l1 l2, charListLt l1 l2 = true → charListLt l2 l1 = false := by
  intro l1
  induction l1 with
  | nil =>
      intro l2 h
      cases l2 with
      | nil => exact absurd h (by simp [charListLt])
      | cons b bs => rfl
  | cons a as ih =>
      intro l2 h
      cases l2 with
      | nil => exact absurd h (by simp [charListLt])
      | cons b bs =>
          simp only [charListLt] at h ⊢
          by_cases hab : a.toNat < b.toNat
          · have hba : ¬ b.toNat < a.toNat := Nat.lt_asymm hab
            simp [hab, hba]
          · by_cases hba : b.toNat < a.toNat
            · simp [hab, hba] at h
            · simp only [hab, hba, if_false] at h ⊢
              exact ih bs h

theorem strLt_irrefl (s : String) : strLt s s = false := charListLt_irrefl s.data

theorem strLt_asymm {a b : String} (h : strLt a b = true) : strLt b a = false :=
  charListLt_asymm a.data b.data h

inductive NumTy where
  | IntT | UintT | FloatT
  deriving DecidableEq, Repr

/-- The AST argument language the ADT-erasure mapper walks. -/
inductive AstArg where
  | NumericConstant (v : Int) (finalType : Option NumTy)
  | StringConstant (s : String)
  | NilConstant
  | Variable (n : String)
  | UnnamedVariable
  | RecordInit (args : List AstArg)
  | BranchInit (ctor : String) (args : List AstArg)
  deriving Repr

/-- A branch of an algebraic data type, as the SumTypeBranches analysis
stores it: its constructor name and the number of its fields. -/
structure BranchDecl where
  name : String
  fieldCount : Nat
  deriving DecidableEq, Repr

/-- isADTEnum: every branch of the type is nullary. -/
def isADTEnum (branches : List BranchDecl) : Bool :=
  branches.all (fun b => b.fieldCount = 0)

/-- The branch id computed by the std lower_bound search of removeADTs
(AstToRamTranslator.cpp lines 615-623): on the branch list, which the
analysis keeps sorted lexicographically by name, the index found is the
number of branches whose name precedes the constructor. -/
def branchIdOf (branches : List BranchDecl) (ctor : String) : Nat :=
  branches.countP (fun b => strLt b.name ctor)

mutual
/-- AstToRamTranslator::removeADTs (lines 593-662): a bottom-up in-place
rewrite; children are rewritten first, then every BranchInit node is replaced
by the enum tag, a two-field record around the single argument, or a
two-field record around the packed argument record.  env gives, per
constructor, the branch list of its enclosing sum type. -/
def removeADTsArg (env : String → List BranchDecl) : AstArg → AstArg
  | .BranchInit ctor args =>
      if isADTEnum (env ctor) then
        .NumericConstant (branchIdOf (env ctor) ctor) (some .IntT)
      else
        .RecordInit [.NumericConstant (branchIdOf (env ctor) ctor) (some .IntT),
          match removeADTsList env args with
          | [single] => single
          | rewritten => .RecordInit rewritten]
  | .RecordInit args => .RecordInit (removeADTsList env args)
  | a => a
def removeADTsList (env : String → List BranchDecl) : List AstArg → List AstArg
  | [] => []
  | a :: as => removeADTsArg env a :: removeADTsList env as
end

mutual
def containsBranchInit : AstArg → Bool
  | .BranchInit _ _ => true
  | .RecordInit args => containsBranchInitList args
  | _ => false
def containsBranchInitList : List AstArg → Bool
  | [] => false
  | a :: as => containsBranchInit a || containsBranchInitList as
end

theorem removeADTsList_length (env : String → List BranchDecl) (l : List AstArg) :
    (removeADTsList env l).length = l.length := by
  induction l with
  | nil => rfl
  | cons a as ih => simp [removeADTsList, ih]

mutual
theorem removeADTsArg_no_branch (env : String → List BranchDecl) :
    ∀ a : AstArg, containsBranchInit (removeADTsArg env a) = false := by
  intro a
  cases a with
  | NumericConstant v t => rfl
  | StringConstant s => rfl
  | NilConstant => rfl
  | Variable n => rfl
  | UnnamedVariable => rfl
  | RecordInit args =>
      have h := removeADTsList_no_branch env args
      simpa [removeADTsArg, containsBranchInit] using h
  | BranchInit ctor args =>
      have h := removeADTsList_no_branch env args
      simp only [removeADTsArg]
      split
      · rfl
      · rcases hm : removeADTsList env args with _ | ⟨x, _ | ⟨y, ys⟩⟩ <;>
          rw [hm] at h <;>
          simp_all [containsBranchInit, containsBranchInitList]
theorem removeADTsList_no_branch (env : String → List BranchDecl) :
    ∀ l : List AstArg, containsBranchInitList (removeADTsList env l) = false := by
  intro l
  cases l with
  | nil => rfl
  | cons a as =>
      have h1 := removeADTsArg_no_branch env a
      have h2 := removeADTsList_no_branch env as
      simp [removeADTsList, containsBranchInitList, h1, h2]
end

/-- On a branch list sorted strictly by name, the number of branches whose
name precedes the name at index i is i itself. -/
theorem countP_lt_of_sorted (branches : List BranchDecl)
    (hsorted : branches.Pairwise (fun a b => strLt a.name b.name = true)) :
    ∀ (i : Nat) (hi : i < branches.length),
      branches.countP (fun b => strLt b.name (branches.get ⟨i, hi⟩).name) = i := by
  induction branches with
  | nil => intro i hi; exact absurd hi (by simp)
  | cons hd tl ih =>
      intro i hi
      rcases List.pairwise_cons.mp hsorted with ⟨hhd, htl⟩
      match i with
      | 0 =>
          simp only [List.get]
          rw [List.countP_cons, strLt_irrefl]
          simp only [Bool.false_eq_true, if_false, add_zero]
          rw [List.countP_eq_zero]
          intro b hb
          simp [strLt_asymm (hhd b hb)]
      | Nat.succ j =>
          have hj : j < tl.length := Nat.lt_of_succ_lt_succ hi
          simp only [List.get]
          rw [List.countP_cons]
          have hmem : tl.get ⟨j, hj⟩ ∈ tl := List.get_mem tl j hj
          rw [hhd _ hmem]
          simp only [if_true]
          rw [ih htl j hj]

/-- C6: ADT erasure (1) leaves no BranchInit anywhere in the rewritten AST,
and (2) rewrites a BranchInit whose constructor sits at 0-based position i of
the lexicographically sorted branch list of its sum type into: a signed
integer constant i when the type is an enum; a record [i, arg] when the
branch has exactly one argument; and a record [i, [args...]] otherwise. -/
theorem removeADTs_spec (env : String → List BranchDecl) :
    (∀ a : AstArg, containsBranchInit (removeADTsArg env a) = false) ∧
    (∀ (ctor : String) (args : List AstArg) (i : Nat) (hi : i < (env ctor).length),
      (env ctor).Pairwise (fun a b => strLt a.name b.name = true) →
      ((env ctor).get ⟨i, hi⟩).name = ctor →
      (isADTEnum (env ctor) = true →
        removeADTsArg env (.BranchInit ctor args) = .NumericConstant i (some .IntT)) ∧
      (isADTEnum (env ctor) = false → args.length = 1 →
        ∃ single, removeADTsList env args = [single] ∧
          removeADTsArg env (.BranchInit ctor args) =
            .RecordInit [.NumericConstant i (some .IntT), single]) ∧
      (isADTEnum (env ctor) = false → args.length ≠ 1 →
        removeADTsArg env (.BranchInit ctor args) =
          .RecordInit [.NumericConstant i (some .IntT),
            .RecordInit (removeADTsList env args)])) := by
  refine ⟨removeADTsArg_no_branch env, ?_⟩
  intro ctor args i hi hsorted hname
  have hid : branchIdOf (env ctor) ctor = i := by
    have hc := countP_lt_of_sorted (env ctor) hsorted i hi
    rw [hname] at hc
    exact hc
  refine ⟨?_, ?_, ?_⟩
  · intro henum
    simp only [removeADTsArg, henum, if_true, hid]
  · intro henum hlen
    have hlen1 : (removeADTsList env args).length = 1 := by
      rw [removeADTsList_length]; exact hlen
    obtain ⟨single, hsingle⟩ : ∃ s, removeADTsList env args = [s] := by
      rcases hm : removeADTsList env args with _ | ⟨x, _ | ⟨y, ys⟩⟩ <;>
        rw [hm] at hlen1 <;> simp at hlen1
      exact ⟨x, rfl⟩
    refine ⟨single, hsingle, ?_⟩
    simp only [removeADTsArg, henum, Bool.false_eq_true, if_false, hid, hsingle]
  · intro henum hlen
    have hlen1 : (removeADTsList env args).length ≠ 1 := by
      rw [removeADTsList_length]; exact hlen
    simp only [removeADTsArg, henum, Bool.false_eq_true, if_false, hid]
    rcases hm : removeADTsList env args with _ | ⟨x, _ | ⟨y, ys⟩⟩
    · rfl
    · rw [hm] at hlen1
      simp at hlen1
    · rfl

/-- Witness for C6 at the spec's S3 scenario: for the enum
Color = Blue | Green | Red (sorted lexicographically), every use of Red
erases to the signed constant 2, and erasure of a nested general branch
leaves no BranchInit behind. -/
theorem removeADTs_spec_witness :
    (let colorEnv : String → List BranchDecl :=
       fun _ => [⟨"Blue", 0⟩, ⟨"Green", 0⟩, ⟨"Red", 0⟩]
     removeADTsArg colorEnv (.BranchInit "Red" []) = .NumericConstant 2 (some .IntT) ∧
     containsBranchInit (removeADTsArg colorEnv
       (.RecordInit [.BranchInit "Red" [], .Variable "x"])) = false) := by
  have h := removeADTs_spec (fun _ => [⟨"Blue", 0⟩, ⟨"Green", 0⟩, ⟨"Red", 0⟩])
  exact ⟨(h.2 "Red" [] 2 (by decide) (by decide) rfl).1 rfl, h.1 _⟩

/-! ## C1 and C7: body literal constraints
(ClauseTranslator::addBodyLiteralConstraints and its helpers) -/

/-- The Filter wrappers produced for the translatable body literals
(seminaive/ClauseTranslator.cpp lines 530-535); tc abstracts
TranslatorContext::translateConstraint, which returns nothing for atoms. -/
def translateConstraintFilters (tc : Literal → Option RamCondition)
    (body : List Literal) (op : RamOperation) : RamOperation :=
  body.foldl (fun o lit =>
    match tc lit with
    | some cond => .Filter cond o
    | none => o) op

/-- ClauseTranslator::addNegatedDeltaAtom (lines 487-506); tv abstracts
TranslatorContext::translateValue via the clause ValueIndex. -/
def addNegatedDeltaAtom (tv : Arg → RamExpr) (op : RamOperation) (atom : Atom) : RamOperation :=
  if atom.args.length = 0 then
    .Filter (.EmptinessCheck (getDeltaRelationName atom.name)) op
  else
    .Filter (.Negation (.ExistenceCheck (getDeltaRelationName atom.name) (atom.args.map tv))) op

/-- ClauseTranslator::addNegatedAtom (lines 508-526). -/
def addNegatedAtom (tv : Arg → RamExpr) (op : RamOperation) (atom : Atom) : RamOperation :=
  if atom.args.length = 0 then
    .Filter (.EmptinessCheck (getConcreteRelationName atom.name)) op
  else
    .Filter (.Negation (.ExistenceCheck (getConcreteRelationName atom.name) (atom.args.map tv))) op

/-- Modelled from the spec: ram::toCondition (ram/utility, outside the
embedded sources) folds a condition list into a left-nested conjunction, an
empty list giving True. -/
def toCondition : List RamCondition → RamCondition
  | [] => .True
  | c :: rest => conjOf c rest

/-- The equality constraints addDistinct collects (lines 474-483): one
EQ(lowered d arg, lowered g arg) per column whose two lowered expressions
differ (identical lowered pairs are trivially-true equalities and skipped). -/
def distinctConditions (tv : Arg → RamExpr) (atom1 atom2 : Atom) : List RamCondition :=
  (List.range atom1.args.length).filterMap (fun i =>
    let a1 := tv (atom1.args.getD i .UnnamedVar)
    let a2 := tv (atom2.args.getD i .UnnamedVar)
    if a1 ≠ a2 then some (.Constraint .EQ a1 a2) else none)

/-- ClauseTranslator::addDistinct (lines 470-485). -/
def addDistinct (tv : Arg → RamExpr) (op : RamOperation) (atom1 atom2 : Atom) : RamOperation :=
  .Filter (.Negation (toCondition (distinctConditions tv atom1 atom2))) op

/-- The translator sccAtoms vector resolved to atoms. -/
def sccAtomsList (st : TranslatorState) (c : Clause) : List Atom :=
  st.sccAtomIdxs.filterMap (fun j => (bodyAtoms c).get? j)

/-- ClauseTranslator::addBodyLiteralConstraints (lines 528-561). -/
def addBodyLiteralConstraints (tc : Literal → Option RamCondition) (tv : Arg → RamExpr)
    (st : TranslatorState) (c : Clause) (op : RamOperation) : RamOperation :=
  let op1 := translateConstraintFilters tc c.body op
  if c.isSubsumptive then
    if st.mode = .SubsumeRejectNewNew ∨ st.mode = .SubsumeDeleteCurrentCurrent then
      match c.body.get? 0, c.body.get? 1 with
      | some (.atom dominated), some (.atom dominating) => addDistinct tv op1 dominated dominating
      | _, _ => op1
    else op1
  else if isRecursive st then
    let op2 := if c.head.args.length > 0 then addNegatedAtom tv op1 c.head else op1
    ((sccAtomsList st c).drop (st.version + 1)).foldl
      (fun o a => addNegatedDeltaAtom tv o a) op2
  else op1

/-- Whether condition d appears on the Filter spine of an operation. -/
def onSpine : RamOperation → RamCondition → Bool
  | .Filter c inner, d => c == d || onSpine inner d
  | _, _ => false

/-- The recursive-negation condition for a delta atom: an emptiness check of
the delta relation when the atom is nullary, a negated existence check
against it otherwise. -/
def deltaNegCond (tv : Arg → RamExpr) (atom : Atom) : RamCondition :=
  if atom.args.length = 0 then .EmptinessCheck (getDeltaRelationName atom.name)
  else .Negation (.ExistenceCheck (getDeltaRelationName atom.name) (atom.args.map tv))

theorem addNegatedDeltaAtom_eq (tv : Arg → RamExpr) (op : RamOperation) (atom : Atom) :
    addNegatedDeltaAtom tv op atom = .Filter (deltaNegCond tv atom) op := by
  unfold addNegatedDeltaAtom deltaNegCond
  split <;> rfl

theorem onSpine_foldl_delta_mono (tv : Arg → RamExpr) (l : List Atom) :
    ∀ (op : RamOperation) (d : RamCondition), onSpine op d = true →
      onSpine (l.foldl (fun o a => addNegatedDeltaAtom tv o a) op) d = true := by
  induction l with
  | nil => intro op d h; exact h
  | cons a as ih =>
      intro op d h
      simp only [List.foldl_cons]
      apply ih
      rw [addNegatedDeltaAtom_eq]
      simp [onSpine, h]

theorem onSpine_foldl_delta_mem (tv : Arg → RamExpr) (l : List Atom) :
    ∀ (op : RamOperation), ∀ a ∈ l,
      onSpine (l.foldl (fun o x => addNegatedDeltaAtom tv o x) op) (deltaNegCond tv a) = true := by
  induction l with
  | nil => intro op a h; exact absurd h (by simp)
  | cons hd tl ih =>
      intro op a h
      simp only [List.foldl_cons]
      rcases List.mem_cons.mp h with rfl | hmem
      · apply onSpine_foldl_delta_mono
        rw [addNegatedDeltaAtom_eq]
        simp [onSpine]
      · exact ih _ a hmem

/-- C1: in a recursive (non-subsumptive) clause translated with version v,
the operation tree emitted by addBodyLiteralConstraints contains, for every
atom of the SCC subset at position at least v+1, a filter holding the
negated existence check against that atom's @delta_ relation (an emptiness
check of the delta relation when the atom is nullary), and, whenever the head
has arity greater than zero, a filter holding the negated existence check
against the main (concrete) head relation.  The hypothesis ties the
translator's sccAtoms to the body atoms whose relation lies in the SCC. -/
theorem addBodyLiteralConstraints_recursive_negations
    (tc : Literal → Option RamCondition) (tv : Arg → RamExpr) (inSCC : String → Bool)
    (st : TranslatorState) (c : Clause) (op : RamOperation)
    (hsub : c.isSubsumptive = false)
    (hfilter : sccAtomsList st c = (bodyAtoms c).filter (fun a => inSCC a.name))
    (hrec : isRecursive st = true) :
    (∀ (i : Nat) (hi : i < (sccAtomsList st c).length), st.version + 1 ≤ i →
      onSpine (addBodyLiteralConstraints tc tv st c op)
        (deltaNegCond tv ((sccAtomsList st c).get ⟨i, hi⟩)) = true) ∧
    (c.head.args.length > 0 →
      onSpine (addBodyLiteralConstraints tc tv st c op)
        (.Negation (.ExistenceCheck (getConcreteRelationName c.head.name)
          (c.head.args.map tv))) = true) := by
  have hop : addBodyLiteralConstraints tc tv st c op =
      ((sccAtomsList st c).drop (st.version + 1)).foldl
        (fun o a => addNegatedDeltaAtom tv o a)
        (if c.head.args.length > 0 then
          addNegatedAtom tv (translateConstraintFilters tc c.body op) c.head
         else translateConstraintFilters tc c.body op) := by
    unfold addBodyLiteralConstraints
    rw [hsub, hrec]
    simp
  constructor
  · intro i hi hge
    rw [hop]
    have hlt : i - (st.version + 1) < ((sccAtomsList st c).drop (st.version + 1)).length := by
      rw [List.length_drop]; omega
    have hmem : (sccAtomsList st c).get ⟨i, hi⟩ ∈ (sccAtomsList st c).drop (st.version + 1) := by
      have h2 : ((sccAtomsList st c).drop (st.version + 1)).get ⟨i - (st.version + 1), hlt⟩ =
          (sccAtomsList st c).get ⟨i, hi⟩ := by
        simp only [List.get_eq_getElem]
        rw [List.getElem_drop]
        congr 1
        omega
      rw [← h2]
      exact List.get_mem _ _ _
    exact onSpine_foldl_delta_mem tv _ _ _ hmem
  · intro hhd
    rw [hop]
    apply onSpine_foldl_delta_mono
    rw [if_pos hhd]
    unfold addNegatedAtom
    rw [if_neg (by omega)]
    simp [onSpine]

/-- Witness for C1 on the concrete recursive clause
h(x) :- p(x), q(x) with both body atoms in the SCC and version 0: the delta
negation for the atom at SCC position 1 and the head negation are both on the
emitted Filter spine. -/
theorem addBodyLiteralConstraints_recursive_negations_witness :
    (let tv : Arg → RamExpr := fun a =>
       match a with
       | .Var n => .StringConstant n
       | _ => .UndefValue
     let c : Clause := ⟨⟨"h", [Arg.Var "x"]⟩,
       [Literal.atom ⟨"p", [Arg.Var "x"]⟩, Literal.atom ⟨"q", [Arg.Var "x"]⟩], false, none⟩
     let st : TranslatorState := ⟨.DEFAULT, [0, 1], 0⟩
     onSpine (addBodyLiteralConstraints (fun _ => none) tv st c (.Insert "h" []))
       (deltaNegCond tv ⟨"q", [Arg.Var "x"]⟩) = true ∧
     onSpine (addBodyLiteralConstraints (fun _ => none) tv st c (.Insert "h" []))
       (.Negation (.ExistenceCheck "h" [.StringConstant "x"])) = true) := by
  have h := addBodyLiteralConstraints_recursive_negations
    (fun _ => none)
    (fun a => match a with | .Var n => .StringConstant n | _ => .UndefValue)
    (fun _ => true)
    ⟨.DEFAULT, [0, 1], 0⟩
    ⟨⟨"h", [Arg.Var "x"]⟩,
      [Literal.atom ⟨"p", [Arg.Var "x"]⟩, Literal.atom ⟨"q", [Arg.Var "x"]⟩], false, none⟩
    (.Insert "h" [])
    rfl (by decide) rfl
  exact ⟨h.1 1 (by decide) (by decide), h.2 (by decide)⟩

/-- C7: for a subsumptive clause, addBodyLiteralConstraints adds the
self-distinctness filter, a negation of the conjunction of the equality
constraints between the lowered argument tuples of the dominated and
dominating atoms, exactly in modes SubsumeRejectNewNew and
SubsumeDeleteCurrentCurrent; in the other two subsumptive modes the emitted
operation is exactly the literal-constraint tree with no distinctness
filter. -/
theorem addBodyLiteralConstraints_subsumptive_distinct
    (tc : Literal → Option RamCondition) (tv : Arg → RamExpr)
    (st : TranslatorState) (c : Clause) (op : RamOperation) (d g : Atom)
    (hsub : c.isSubsumptive = true)
    (hd : c.body.get? 0 = some (.atom d))
    (hg : c.body.get? 1 = some (.atom g)) :
    ((st.mode = .SubsumeRejectNewNew ∨ st.mode = .SubsumeDeleteCurrentCurrent) →
      addBodyLiteralConstraints tc tv st c op =
        .Filter (.Negation (toCondition (distinctConditions tv d g)))
          (translateConstraintFilters tc c.body op)) ∧
    ((st.mode = .SubsumeRejectNewCurrent ∨ st.mode = .SubsumeDeleteCurrentDelta) →
      addBodyLiteralConstraints tc tv st c op = translateConstraintFilters tc c.body op) := by
  constructor
  · intro hmode
    rcases hmode with h | h <;>
      simp only [addBodyLiteralConstraints, hsub, h, hd, hg] <;>
      simp [addDistinct]
  · intro hmode
    unfold addBodyLiteralConstraints
    rw [hsub]
    have hne : ¬ (st.mode = TranslationMode.SubsumeRejectNewNew ∨
        st.mode = TranslationMode.SubsumeDeleteCurrentCurrent) := by
      rcases hmode with h | h <;> rw [h] <;> rintro (h2 | h2) <;> exact absurd h2 (by decide)
    simp [hne]

/-- Witness for C7 on the subsumptive clause with dominated p(x,y) and
dominating p(x,y2): in RejectNewNew mode the emitted tree is the distinctness
filter, built only from the differing column, around the literal filters; in
RejectNewCurrent mode no distinctness filter appears. -/
theorem addBodyLiteralConstraints_subsumptive_distinct_witness :
    (let tv : Arg → RamExpr := fun a =>
       match a with
       | .Var n => .StringConstant n
       | _ => .UndefValue
     let d : Atom := ⟨"p", [Arg.Var "x", Arg.Var "y"]⟩
     let g : Atom := ⟨"p", [Arg.Var "x", Arg.Var "y2"]⟩
     let c : Clause := ⟨⟨"p", [Arg.Var "x", Arg.Var "y"]⟩,
       [Literal.atom d, Literal.atom g], true, none⟩
     addBodyLiteralConstraints (fun _ => none) tv ⟨.SubsumeRejectNewNew, [], 0⟩ c (.Insert "p" []) =
       .Filter (.Negation (.Constraint .EQ (.StringConstant "y") (.StringConstant "y2")))
         (.Insert "p" []) ∧
     addBodyLiteralConstraints (fun _ => none) tv ⟨.SubsumeRejectNewCurrent, [], 0⟩ c (.Insert "p" []) =
       .Insert "p" []) := by
  have h1 := addBodyLiteralConstraints_subsumptive_distinct
    (fun _ => none)
    (fun a => match a with | .Var n => .StringConstant n | _ => .UndefValue)
    ⟨.SubsumeRejectNewNew, [], 0⟩
    ⟨⟨"p", [Arg.Var "x", Arg.Var "y"]⟩,
      [Literal.atom ⟨"p", [Arg.Var "x", Arg.Var "y"]⟩,
       Literal.atom ⟨"p", [Arg.Var "x", Arg.Var "y2"]⟩], true, none⟩
    (.Insert "p" []) ⟨"p", [Arg.Var "x", Arg.Var "y"]⟩ ⟨"p", [Arg.Var "x", Arg.Var "y2"]⟩
    rfl rfl rfl
  have h2 := addBodyLiteralConstraints_subsumptive_distinct
    (fun _ => none)
    (fun a => match a with | .Var n => .StringConstant n | _ => .UndefValue)
    ⟨.SubsumeRejectNewCurrent, [], 0⟩
    ⟨⟨"p", [Arg.Var "x", Arg.Var "y"]⟩,
      [Literal.atom ⟨"p", [Arg.Var "x", Arg.Var "y"]⟩,
       Literal.atom ⟨"p", [Arg.Var "x", Arg.Var "y2"]⟩], true, none⟩
    (.Insert "p" []) ⟨"p", [Arg.Var "x", Arg.Var "y"]⟩ ⟨"p", [Arg.Var "x", Arg.Var "y2"]⟩
    rfl rfl rfl
  refine ⟨?_, h2.2 (Or.inl rfl)⟩
  rw [h1.1 (Or.inl rfl)]
  rfl

/-! ## C3, C4, C9: atom ordering and the Selinger join planner
(ClauseTranslator::getAtomOrdering, lines 701-1031) -/

/-- ClauseTranslator::translateConstant (lines 574-591); the final
polymorphism type is carried on the constant itself. -/
def translateConstant : Arg → RamExpr
  | .StrC s => .StringConstant s
  | .NilC => .SignedConstant 0
  | .IntC v => .SignedConstant v
  | .UintC v => .UnsignedConstant v
  | .FloatC v => .FloatConstant v
  | _ => .UndefValue

/-- PlanTuplesCost (lines 692-699).  The tuples field is a size_t in the
source, so the double tuple estimate is truncated when stored; cost stays a
double, modelled as a rational. -/
structure PlanTuplesCost where
  plan : List Nat
  tuples : Nat
  cost : Rat
  deriving DecidableEq, Repr

/-- Update or append a key in an association list (std map/unordered_map
assignment). -/
def setAssoc {α : Type} (m : List (String × α)) (k : String) (v : α) : List (String × α) :=
  if (List.lookup k m).isSome then m.map (fun p => if p.1 = k then (k, v) else p)
  else m ++ [(k, v)]

/-- A collected variable set (std set of strings).  Only membership and
inclusion are ever queried of these sets, so first-occurrence order with
duplicates removed is an adequate model of the sorted set. -/
def mkSetStr (l : List String) : List String := l.dedup

/-- The three maps getAtomOrdering builds from the body binary constraints
(lines 771-838). -/
structure ConstraintMaps where
  varToConstant : List (String × Arg)
  varToOtherVars : List (String × List String)
  ineqToUpperLower : List (String × (List String × List String))
  deriving Repr

def emptyConstraintMaps : ConstraintMaps := ⟨[], [], []⟩

def setIneqLower (m : List (String × (List String × List String))) (k : String)
    (other : List String) : List (String × (List String × List String)) :=
  setAssoc m k (other, ((List.lookup k m).getD ([], [])).2)

def setIneqUpper (m : List (String × (List String × List String))) (k : String)
    (other : List String) : List (String × (List String × List String)) :=
  setAssoc m k (((List.lookup k m).getD ([], [])).1, other)

/-- One iteration of the constraint scan (lines 780-838). -/
def processConstraint (m : ConstraintMaps) (cst : AstCOp × Arg × Arg) : ConstraintMaps :=
  let op := cst.1
  let lhs := cst.2.1
  let rhs := cst.2.2
  let m :=
    if isIneqConstraint op then
      let m1 :=
        match lhs with
        | .Var v =>
            let other := mkSetStr rhs.vars
            let ma := if isLessThan op || isLessEqual op then
                { m with ineqToUpperLower := setIneqUpper m.ineqToUpperLower v other } else m
            if isGreaterThan op || isGreaterEqual op then
              { ma with ineqToUpperLower := setIneqLower ma.ineqToUpperLower v other }
            else ma
        | _ => m
      match rhs with
      | .Var v =>
          let other := mkSetStr lhs.vars
          let mb := if isLessThan op || isLessEqual op then
              { m1 with ineqToUpperLower := setIneqLower m1.ineqToUpperLower v other } else m1
          if isGreaterThan op || isGreaterEqual op then
            { mb with ineqToUpperLower := setIneqUpper mb.ineqToUpperLower v other }
          else mb
      | _ => m1
    else m
  if ¬ isEqConstraint op then m
  else
    match lhs, rhs with
    | .Var v, other =>
        if other.isConstant then { m with varToConstant := setAssoc m.varToConstant v other }
        else { m with varToOtherVars := setAssoc m.varToOtherVars v (mkSetStr other.vars) }
    | other, .Var v =>
        if other.isConstant then { m with varToConstant := setAssoc m.varToConstant v other }
        else { m with varToOtherVars := setAssoc m.varToOtherVars v (mkSetStr other.vars) }
    | _, _ => m

/-- The bounded-inequality pass (lines 841-848): a variable boxed between a
lower and an upper bound with lower included in upper is treated like an
equality on the upper variable set. -/
def boundedIneqPass (m : ConstraintMaps) : ConstraintMaps :=
  m.ineqToUpperLower.foldl (fun acc p =>
    if p.2.1 ≠ [] ∧ p.2.2 ≠ [] ∧ p.2.1.all (fun x => decide (x ∈ p.2.2)) then
      { acc with varToOtherVars := setAssoc acc.varToOtherVars p.1 p.2.2 }
    else acc) m

/-- The per-atom constant positions (lines 862-885): a constant argument, or
a variable equated to a constant, binds its column to the lowered constant. -/
def idxConstantsOf (varToConstant : List (String × Arg)) (atom : Atom) :
    List (Nat × RamExpr) :=
  atom.args.enum.filterMap (fun p =>
    let arg := match p.2 with
      | .Var v => (List.lookup v varToConstant).getD p.2
      | a => a
    if arg.isConstant then some (p.1, translateConstant arg) else none)

/-- The body positions whose atom structurally equals an SCC atom
(lines 761-769). -/
def recursiveIdxs (sccAtoms : List Atom) (atoms : List Atom) : List Nat :=
  (List.range atoms.length).filter (fun i => sccAtoms.any (fun a => atoms.getD i default == a))

/-- The scheduler statistics the TranslatorContext exposes (external
analyses): plain relation size, and unique-key estimates keyed by relation,
bound columns and bound constants. -/
structure SelingerCtx where
  relationSize : String → Nat
  recursiveUniqueKeys : String → List Nat → List (Nat × RamExpr) → Nat
  nonRecursiveUniqueKeys : String → List Nat → List (Nat × RamExpr) → Nat

/-- A sorted duplicate-free list of naturals (std set of size_t). -/
def mkSortedNatSet (l : List Nat) : List Nat := List.insertionSort (fun a b => a ≤ b) l.dedup

/-- The getRelationSize lambda (lines 730-759): join columns and constant
positions merge into one key set; an unconstrained non-recursive atom reads
the plain relation size, everything else a unique-keys estimate. -/
def getRelationSizeFn (ctx : SelingerCtx) (isRec : Bool) (rel : String)
    (joinColumns : List Nat) (constantsMap : List (Nat × RamExpr)) : Nat :=
  let joinKeys := mkSortedNatSet (joinColumns ++ constantsMap.map Prod.fst)
  if joinKeys = [] ∧ isRec = false then ctx.relationSize rel
  else if isRec then ctx.recursiveUniqueKeys rel joinKeys constantsMap
  else ctx.nonRecursiveUniqueKeys rel joinKeys constantsMap

/-- One argument step of the join-column and bound-column scan
(lines 933-967): the accumulator carries (joinColumns, numBound). -/
def joinStep (idxConstants : List (Nat × RamExpr))
    (varToOtherVars : List (String × List String)) (grounded : List String)
    (acc : List Nat × Nat) (p : Nat × Arg) : List Nat × Nat :=
  if (List.lookup p.1 idxConstants).isSome then (acc.1, acc.2 + 1)
  else
    match p.2 with
    | .UnnamedVar => (acc.1, acc.2 + 1)
    | .Var v =>
        (match List.lookup v varToOtherVars with
         | some dependentVars =>
             if dependentVars.all (fun x => decide (x ∈ grounded)) then (acc.1 ++ [p.1], acc.2 + 1)
             else if v ∈ grounded then (acc.1 ++ [p.1], acc.2 + 1)
             else (acc.1, acc.2)
         | none =>
             if v ∈ grounded then (acc.1 ++ [p.1], acc.2 + 1)
             else (acc.1, acc.2))
    | _ => (acc.1, acc.2)

/-- The join columns and bound-column count of an atom against a grounded
variable set. -/
def computeJoinInfo (atom : Atom) (idxConstants : List (Nat × RamExpr))
    (varToOtherVars : List (String × List String)) (grounded : List String) :
    List Nat × Nat :=
  atom.args.enum.foldl (joinStep idxConstants varToOtherVars grounded) ([], 0)

/-- Whether one column counts as bound in that scan: a constant position, an
unnamed variable, or a variable whose dependency set is grounded or that is
grounded itself. -/
def colBound (idxConstants : List (Nat × RamExpr))
    (varToOtherVars : List (String × List String)) (grounded : List String)
    (argIdx : Nat) (arg : Arg) : Bool :=
  (List.lookup argIdx idxConstants).isSome ||
    (match arg with
     | .UnnamedVar => true
     | .Var v =>
         (match List.lookup v varToOtherVars with
          | some dependentVars =>
              dependentVars.all (fun x => decide (x ∈ grounded)) || decide (v ∈ grounded)
          | none => decide (v ∈ grounded))
     | _ => false)

/-- The expected-tuple estimate for extending a plan with one atom
(lines 969-994): 1 when every column is bound; the constant-constrained
relation size when there is no join column; otherwise that size divided by
the unique-keys estimate, the divisor clamped to 1 when the estimate is 0. -/
def computeExpectedTuples (relSizeFn : Bool → String → List Nat → List (Nat × RamExpr) → Nat)
    (isRec : Bool) (name : String) (idxConstants : List (Nat × RamExpr))
    (arity numBound : Nat) (joinColumns : List Nat) : Rat :=
  if numBound = arity then 1
  else
    let relSizeWithConstants := relSizeFn isRec name [] idxConstants
    if joinColumns = [] then (relSizeWithConstants : Rat)
    else
      let uniqueKeys := relSizeFn isRec name joinColumns idxConstants
      (relSizeWithConstants : Rat) / (if uniqueKeys > 0 then (uniqueKeys : Rat) else 1)

/-- Extending a memoised plan with one atom (lines 920-1004): new tuple count
is the old count times the expected tuples (truncated to a size_t when
stored), new cost adds newTuples times the atom arity, and the atom index is
appended to the plan. -/
def extendPlanCost (relSizeFn : Bool → String → List Nat → List (Nat × RamExpr) → Nat)
    (isRec : Bool) (name : String) (atom : Atom) (idxConstants : List (Nat × RamExpr))
    (varToOtherVars : List (String × List String)) (grounded : List String)
    (old : PlanTuplesCost) (atomIdx : Nat) : PlanTuplesCost :=
  let ji := computeJoinInfo atom idxConstants varToOtherVars grounded
  let expectedTuples :=
    computeExpectedTuples relSizeFn isRec name idxConstants atom.args.length ji.2 ji.1
  let newTuples : Rat := (old.tuples : Rat) * expectedTuples
  let newCost : Rat := old.cost + newTuples * (atom.args.length : Rat)
  ⟨old.plan ++ [atomIdx], newTuples.floor.toNat, newCost⟩

/-- The memoisation update (lines 1006-1015): a fresh subset entry is
inserted; an existing entry is replaced whenever its cost is greater than or
equal to the candidate cost. -/
def updateCacheEntry (old : Option PlanTuplesCost) (cand : PlanTuplesCost) : PlanTuplesCost :=
  match old with
  | none => cand
  | some o => if o.cost ≥ cand.cost then cand else o

/-- Applying the memoisation update to a cache level keyed by atom subsets. -/
def cacheUpdate (level : List (List Nat × PlanTuplesCost)) (key : List Nat)
    (cand : PlanTuplesCost) : List (List Nat × PlanTuplesCost) :=
  match List.lookup key level with
  | none => level ++ [(key, cand)]
  | some o => level.map (fun p => if p.1 = key then (key, updateCacheEntry (some o) cand) else p)

/-- One K-level of the Selinger dynamic program (lines 900-1018): every
K-subset is costed by removing each member in turn, extending the best
(K-1)-plan with it, and memoising per subset. -/
def buildLevel (ext : PlanTuplesCost → List Nat → Nat → PlanTuplesCost)
    (prev : List (List Nat × PlanTuplesCost)) (subsets : List (List Nat)) :
    List (List Nat × PlanTuplesCost) :=
  subsets.foldl (fun level subset =>
    (List.range subset.length).foldl (fun level i =>
      let smaller := subset.eraseIdx i
      match List.lookup smaller prev with
      | none => level
      | some old => cacheUpdate level subset (ext old smaller (subset.getD i 0))) level) []

/-- The Selinger planner of getAtomOrdering (lines 727-1030), returning the
best plan over all atoms; nameOf resolves an atom position to the relation
name used for statistics lookups. -/
def selingerOrder (ctx : SelingerCtx) (nameOf : Nat → String) (sccAtoms : List Atom)
    (atoms : List Atom) (constraints : List (AstCOp × Arg × Arg)) : List Nat :=
  let maps := boundedIneqPass (constraints.foldl processConstraint emptyConstraintMaps)
  let recIdxs := recursiveIdxs sccAtoms atoms
  let groundedOf := fun i => mkSetStr ((atoms.getD i default).args.flatMap Arg.vars)
  let idxC := fun i => idxConstantsOf maps.varToConstant (atoms.getD i default)
  let relSizeFn := getRelationSizeFn ctx
  let N := atoms.length
  let level1 : List (List Nat × PlanTuplesCost) :=
    (List.range N).map (fun i =>
      let tuples := relSizeFn (decide (i ∈ recIdxs)) (nameOf i) [] (idxC i)
      ([i], ⟨[i], tuples, ((tuples * (atoms.getD i default).args.length : Nat) : Rat)⟩))
  let ext := fun (old : PlanTuplesCost) (smaller : List Nat) (atomIdx : Nat) =>
    extendPlanCost relSizeFn (decide (atomIdx ∈ recIdxs)) (nameOf atomIdx)
      (atoms.getD atomIdx default) (idxC atomIdx) maps.varToOtherVars
      (mkSetStr (smaller.flatMap groundedOf)) old atomIdx
  let finalLevel := (List.range' 2 (N - 1)).foldl
    (fun prev K => buildLevel ext prev (List.sublistsLen K (List.range N))) level1
  match List.lookup (List.range N) finalLevel with
  | some best => best.plan
  | none => List.range N

/-- Modelled from the spec: ast reorderAtoms (ast/utility, outside the
embedded sources) places atoms[newOrder[i]] at position i. -/
def reorderAtoms (atoms : List Atom) (newOrder : List Nat) : List Atom :=
  newOrder.map (fun i => atoms.getD i default)

/-- ClauseTranslator::getAtomOrdering (lines 701-1031).  When the clause has
at most one atom or auto-scheduling is off, a user plan for the current
version is honoured with its 1-based indices shifted down; otherwise the
Selinger planner decides the order (and the source also clears the clause's
stored execution plan). -/
def getAtomOrdering (autoSchedule : Bool) (ctx : SelingerCtx) (st : TranslatorState)
    (c : Clause) : List Atom :=
  let atoms := bodyAtoms c
  if atoms.length ≤ 1 ∨ autoSchedule = false then
    match c.executionPlan with
    | none => atoms
    | some orders =>
        match List.lookup st.version orders with
        | none => atoms
        | some order => reorderAtoms atoms (order.map (fun i => i - 1))
  else
    reorderAtoms atoms
      (selingerOrder ctx (fun i => getClauseAtomName st c (.body i)) (sccAtomsList st c)
        atoms (bodyBinaryConstraints c))

theorem joinStep_snd (idxConstants : List (Nat × RamExpr))
    (varToOtherVars : List (String × List String)) (grounded : List String)
    (acc : List Nat × Nat) (p : Nat × Arg) :
    (joinStep idxConstants varToOtherVars grounded acc p).2 =
      acc.2 + (if colBound idxConstants varToOtherVars grounded p.1 p.2 then 1 else 0) := by
  rcases p with ⟨idx, arg⟩
  unfold joinStep colBound
  rcases hs : (List.lookup idx idxConstants).isSome
  · cases arg
    case Var v =>
      rcases hv : List.lookup v varToOtherVars with _ | deps
      · by_cases hg : v ∈ grounded <;> simp [hs, hv, hg]
      · by_cases hall : deps.all (fun x => decide (x ∈ grounded)) = true
        · simp [hs, hv, hall]
        · by_cases hg : v ∈ grounded <;> simp [hs, hv, hall, hg]
    all_goals simp [hs]
  · simp [hs]

theorem computeJoinInfo_numBound (atom : Atom) (idxConstants : List (Nat × RamExpr))
    (varToOtherVars : List (String × List String)) (grounded : List String) :
    (computeJoinInfo atom idxConstants varToOtherVars grounded).2 =
      atom.args.enum.countP (fun p => colBound idxConstants varToOtherVars grounded p.1 p.2) := by
  have key : ∀ (l : List (Nat × Arg)) (acc : List Nat × Nat),
      (l.foldl (joinStep idxConstants varToOtherVars grounded) acc).2 =
        acc.2 + l.countP (fun p => colBound idxConstants varToOtherVars grounded p.1 p.2) := by
    intro l
    induction l with
    | nil => intro acc; simp
    | cons p ps ih =>
        intro acc
        rw [List.foldl_cons, ih, List.countP_cons, joinStep_snd]
        by_cases h : colBound idxConstants varToOtherVars grounded p.1 p.2 = true <;>
          simp [h] <;> omega
  unfold computeJoinInfo
  rw [key]
  simp

/-- C9: in the Selinger cost step, the bound-column count is the number of
columns bound by a constant position, an unnamed variable, or a grounded
variable; an atom with every column bound contributes exactly one expected
tuple; otherwise, with join columns present, the estimate is the relation
size divided by max(1, uniqueKeys) with a strictly positive divisor, so the
division-by-zero branch is unreachable, and with no join columns it is the
relation size; and the cost added by extending a plan is newTuples times the
atom's arity, where newTuples is the old tuple count times the estimate. -/
theorem selinger_cost_estimation
    (relSizeFn : Bool → String → List Nat → List (Nat × RamExpr) → Nat)
    (isRec : Bool) (name : String) (atom : Atom)
    (idxConstants : List (Nat × RamExpr)) (varToOtherVars : List (String × List String))
    (grounded : List String) (old : PlanTuplesCost) (atomIdx : Nat) :
    ((computeJoinInfo atom idxConstants varToOtherVars grounded).2 =
      atom.args.enum.countP
        (fun p => colBound idxConstants varToOtherVars grounded p.1 p.2)) ∧
    (∀ (numBound : Nat) (joinColumns : List Nat), numBound = atom.args.length →
      computeExpectedTuples relSizeFn isRec name idxConstants atom.args.length
        numBound joinColumns = 1) ∧
    (∀ (numBound : Nat) (joinColumns : List Nat),
      numBound ≠ atom.args.length → joinColumns ≠ [] →
      computeExpectedTuples relSizeFn isRec name idxConstants atom.args.length
          numBound joinColumns =
        (relSizeFn isRec name [] idxConstants : Rat) /
          ((max 1 (relSizeFn isRec name joinColumns idxConstants) : Nat) : Rat) ∧
      (0 : Rat) < ((max 1 (relSizeFn isRec name joinColumns idxConstants) : Nat) : Rat)) ∧
    (∀ (numBound : Nat) (joinColumns : List Nat),
      numBound ≠ atom.args.length → joinColumns = [] →
      computeExpectedTuples relSizeFn isRec name idxConstants atom.args.length
          numBound joinColumns = (relSizeFn isRec name [] idxConstants : Rat)) ∧
    ((extendPlanCost relSizeFn isRec name atom idxConstants varToOtherVars grounded
        old atomIdx).cost =
      old.cost + ((old.tuples : Rat) *
        computeExpectedTuples relSizeFn isRec name idxConstants atom.args.length
          (computeJoinInfo atom idxConstants varToOtherVars grounded).2
          (computeJoinInfo atom idxConstants varToOtherVars grounded).1) *
        (atom.args.length : Rat)) := by
  refine ⟨computeJoinInfo_numBound atom idxConstants varToOtherVars grounded, ?_, ?_, ?_, rfl⟩
  · intro numBound joinColumns h
    unfold computeExpectedTuples
    rw [if_pos h]
  · intro numBound joinColumns h hj
    unfold computeExpectedTuples
    rw [if_neg h, if_neg hj]
    rcases Nat.eq_zero_or_pos (relSizeFn isRec name joinColumns idxConstants) with h0 | hpos
    · rw [h0]
      norm_num
    · constructor
      · show (relSizeFn isRec name [] idxConstants : Rat) /
            (if relSizeFn isRec name joinColumns idxConstants > 0
             then ((relSizeFn isRec name joinColumns idxConstants : Nat) : Rat) else 1) = _
        rw [if_pos hpos, Nat.max_eq_right hpos]
      · exact_mod_cast Nat.lt_of_lt_of_le Nat.zero_lt_one (Nat.le_max_left 1 _)
  · intro numBound joinColumns h hj
    unfold computeExpectedTuples
    rw [if_neg h, if_pos hj]

/-- Witness for C9: for atom q(x, y) with x grounded by the existing subset
and y free, one of two columns is bound and column 0 is a join column; for a
fully bound atom p(x) the estimate is exactly one tuple, and the cost a plan
extension adds is newTuples times the arity. -/
theorem selinger_cost_estimation_witness :
    (let relSizeFn : Bool → String → List Nat → List (Nat × RamExpr) → Nat :=
       fun _ _ cols _ => if cols = [] then 10 else 0
     let q : Atom := ⟨"q", [Arg.Var "x", Arg.Var "y"]⟩
     (computeJoinInfo q [] [] ["x"]).2 =
       (q.args.enum.countP (fun p => colBound [] [] ["x"] p.1 p.2)) ∧
     computeExpectedTuples relSizeFn false "q" [] 2 2 [0, 1] = 1 ∧
     (computeExpectedTuples relSizeFn false "q" [] 2 1 [0] =
        (10 : Rat) / ((max 1 0 : Nat) : Rat) ∧
      (0 : Rat) < ((max 1 0 : Nat) : Rat)) ∧
     (extendPlanCost relSizeFn false "q" q [] [] ["x"] ⟨[0], 3, 6⟩ 1).cost =
       6 + ((3 : Rat) *
         computeExpectedTuples relSizeFn false "q" [] 2
           (computeJoinInfo q [] [] ["x"]).2 (computeJoinInfo q [] [] ["x"]).1) * 2) := by
  have h := selinger_cost_estimation
    (fun _ _ cols _ => if cols = [] then 10 else 0) false "q"
    ⟨"q", [Arg.Var "x", Arg.Var "y"]⟩ [] [] ["x"] ⟨[0], 3, 6⟩ 1
  refine ⟨h.1, h.2.1 2 [0, 1] rfl, ?_, h.2.2.2.2⟩
  have h3 := h.2.2.1 1 [0] (by decide) (by decide)
  exact h3

/-- C4 counterexample: at equal cost the memoisation step replaces the
previously stored plan with the newly found one, so the first-seen plan is
not kept: with the stored entry for plan [1, 0] at cost 8 and a new candidate
[0, 1] at the same cost 8, the updated entry holds [0, 1]. -/
theorem updateCacheEntry_tie_counterexample :
    updateCacheEntry (some ⟨[1, 0], 4, 8⟩) ⟨[0, 1], 4, 8⟩ = ⟨[0, 1], 4, 8⟩ ∧
    (⟨[1, 0], 4, 8⟩ : PlanTuplesCost).cost = (⟨[0, 1], 4, 8⟩ : PlanTuplesCost).cost ∧
    updateCacheEntry (some ⟨[1, 0], 4, 8⟩) ⟨[0, 1], 4, 8⟩ ≠ ⟨[1, 0], 4, 8⟩ := by
  refine ⟨by decide, rfl, by decide⟩

/-- C4 (amended): the memoisation step is last-seen-wins at equal cost: a
candidate plan replaces the stored plan whenever its cost is less than or
equal to the stored cost (in particular at ties), the stored plan survives
only a strictly cheaper stored cost, and a missing entry is filled with the
candidate; the update is a pure function of the stored entry and the
candidate, hence deterministic for a fixed enumeration order. -/
theorem updateCacheEntry_last_seen_wins (old cand : PlanTuplesCost) :
    (cand.cost ≤ old.cost → updateCacheEntry (some old) cand = cand) ∧
    (old.cost < cand.cost → updateCacheEntry (some old) cand = old) ∧
    updateCacheEntry none cand = cand := by
  refine ⟨?_, ?_, rfl⟩
  · intro h
    simp [updateCacheEntry, ge_iff_le, h]
  · intro h
    simp [updateCacheEntry, ge_iff_le, not_le.mpr h]

theorem updateCacheEntry_last_seen_wins_witness :
    updateCacheEntry (some ⟨[0], 2, 5⟩) ⟨[1], 2, 5⟩ = ⟨[1], 2, 5⟩ ∧
    updateCacheEntry (some ⟨[0], 2, 5⟩) ⟨[1], 2, 7⟩ = ⟨[0], 2, 5⟩ := by
  exact ⟨(updateCacheEntry_last_seen_wins ⟨[0], 2, 5⟩ ⟨[1], 2, 5⟩).1 (by decide),
         (updateCacheEntry_last_seen_wins ⟨[0], 2, 5⟩ ⟨[1], 2, 7⟩).2.1 (by decide)⟩

/-- C3 (amended): when the clause has at most one atom or auto-scheduling is
disabled, a user-supplied execution plan with an order for the current
version fixes the atom ordering to that order with its 1-based indices
shifted to 0-based, and source order is kept when there is no plan or no
order for the current version. -/
theorem getAtomOrdering_plan_honoured (autoSchedule : Bool) (ctx : SelingerCtx)
    (st : TranslatorState) (c : Clause)
    (hcond : (bodyAtoms c).length ≤ 1 ∨ autoSchedule = false) :
    (∀ (orders : ExecutionPlan) (order : List Nat), c.executionPlan = some orders →
      List.lookup st.version orders = some order →
      getAtomOrdering autoSchedule ctx st c =
        reorderAtoms (bodyAtoms c) (order.map (fun i => i - 1))) ∧
    (c.executionPlan = none → getAtomOrdering autoSchedule ctx st c = bodyAtoms c) ∧
    (∀ orders : ExecutionPlan, c.executionPlan = some orders →
      List.lookup st.version orders = none →
      getAtomOrdering autoSchedule ctx st c = bodyAtoms c) := by
  refine ⟨?_, ?_, ?_⟩
  · intro orders order hplan horder
    simp only [getAtomOrdering, hplan, horder]
    rw [if_pos hcond]
  · intro hplan
    simp only [getAtomOrdering, hplan]
    rw [if_pos hcond]
  · intro orders hplan horder
    simp only [getAtomOrdering, hplan, horder]
    rw [if_pos hcond]

/-- Witness for the amended C3: with auto-scheduling off, the plan [2, 1] for
version 0 reverses the two body atoms, and without a plan source order is
kept. -/
theorem getAtomOrdering_plan_honoured_witness :
    (let ctx : SelingerCtx := ⟨fun _ => 4, fun _ _ _ => 2, fun _ _ _ => 2⟩
     let p : Atom := ⟨"p", [Arg.Var "x"]⟩
     let q : Atom := ⟨"q", [Arg.Var "x"]⟩
     let c : Clause := ⟨⟨"r", [Arg.Var "x"]⟩, [Literal.atom p, Literal.atom q], false,
       some [(0, [2, 1])]⟩
     let cNoPlan : Clause := ⟨⟨"r", [Arg.Var "x"]⟩, [Literal.atom p, Literal.atom q],
       false, none⟩
     getAtomOrdering false ctx ⟨.DEFAULT, [], 0⟩ c = [q, p] ∧
     getAtomOrdering false ctx ⟨.DEFAULT, [], 0⟩ cNoPlan = [p, q]) := by
  have h1 := (getAtomOrdering_plan_honoured false
    ⟨fun _ => 4, fun _ _ _ => 2, fun _ _ _ => 2⟩ ⟨.DEFAULT, [], 0⟩
    ⟨⟨"r", [Arg.Var "x"]⟩,
      [Literal.atom ⟨"p", [Arg.Var "x"]⟩, Literal.atom ⟨"q", [Arg.Var "x"]⟩], false,
      some [(0, [2, 1])]⟩
    (Or.inr rfl)).1 [(0, [2, 1])] [2, 1] rfl rfl
  have h2 := (getAtomOrdering_plan_honoured false
    ⟨fun _ => 4, fun _ _ _ => 2, fun _ _ _ => 2⟩ ⟨.DEFAULT, [], 0⟩
    ⟨⟨"r", [Arg.Var "x"]⟩,
      [Literal.atom ⟨"p", [Arg.Var "x"]⟩, Literal.atom ⟨"q", [Arg.Var "x"]⟩], false,
      none⟩
    (Or.inr rfl)).2.1 rfl
  exact ⟨by rw [h1]; rfl, by rw [h2]; rfl⟩

def cexAtomP : Atom := ⟨"p", [.Var "x"]⟩

def cexAtomQ : Atom := ⟨"q", [.Var "x"]⟩

def cexClause : Clause := ⟨⟨"r", [.Var "x"]⟩, [.atom cexAtomP, .atom cexAtomQ], false,
  some [(0, [2, 1])]⟩

def cexCtx : SelingerCtx := ⟨fun _ => 4, fun _ _ _ => 2, fun _ _ _ => 2⟩

def cexState : TranslatorState := ⟨.DEFAULT, [], 0⟩

/-- C3 counterexample: the clause r(x) :- p(x), q(x) carries the execution
plan [2, 1] for the current version 0, yet with auto-scheduling enabled
getAtomOrdering runs the Selinger planner and returns source order [p, q],
not the plan order [q, p], so a user plan for the current version is not
honoured unconditionally. -/
theorem getAtomOrdering_plan_ignored_counterexample :
    cexClause.executionPlan = some [(0, [2, 1])] ∧
    List.lookup cexState.version [(0, [2, 1])] = some [2, 1] ∧
    reorderAtoms (bodyAtoms cexClause) (List.map (fun i => i - 1) [2, 1]) =
      [cexAtomQ, cexAtomP] ∧
    getAtomOrdering true cexCtx cexState cexClause = [cexAtomP, cexAtomQ] ∧
    ([cexAtomP, cexAtomQ] : List Atom) ≠ [cexAtomQ, cexAtomP] := by
  refine ⟨rfl, rfl, by decide, ?_, by decide⟩
  with_unfolding_all decide

end Souffle
